import Mathlib

/-!
Verification development for the spikedetekt2 streaming dual-threshold
spatio-temporal spike detector.

The Python entry point `run` (src/spikedetekt2/core/main.py) and the
parameter loader (src/spikedetekt2/utils/params.py) are embedded directly.
The processing helpers it calls (`apply_threshold`, `connected_components`,
`get_threshold`, the chunk iterator and the chunk-boundary reconciler) are
not part of the provided sources, so they are modelled from the
specification (spec sections 3, 4.2, 4.4, 4.5 and 4.6); every such
definition carries a doc comment starting with `Modelled from the spec:`.

Amplitudes are rational numbers; (time, channel) cells are pairs of
naturals.
-/

namespace SpikeDetekt

/-- Cells of the spatio-temporal grid: (time index, channel index). -/
abbrev Cell := ℕ × ℕ

/-- A recording: number of samples, number of channels, the (filtered)
signal, and the probe adjacency edges of the channel group. -/
structure Rec where
  T : ℕ
  C : ℕ
  sig : ℕ → ℕ → ℚ
  edges : List (ℕ × ℕ)

/-- Detection polarity configuration (spec section 4.4: detect spikes
above, below, or both). -/
inductive Polarity where
  | positive
  | negative
  | both
deriving DecidableEq, Repr

/-- Modelled from the spec: elementwise threshold crossing test against
plus or minus the threshold depending on polarity (spec section 4.4
step 1). -/
def crosses : Polarity → ℚ → ℚ → Bool
  | .positive, th, x => th < x
  | .negative, th, x => x < -th
  | .both, th, x => th < x || x < -th

/-- Symmetric closure of the probe edge list (spec section 4.1: symmetric
adjacency mapping built from explicit neighbor pairs). -/
def neighborB (edges : List (ℕ × ℕ)) (c d : ℕ) : Bool :=
  edges.contains (c, d) || edges.contains (d, c)

/-- Modelled from the spec: the joint spatio-temporal adjacency relation
of spec section 4.4 step 2: cells are adjacent iff their time indices
differ by at most one and their channels are equal or probe neighbors. -/
def adjacentB (edges : List (ℕ × ℕ)) (x y : Cell) : Bool :=
  (x.1 ≤ y.1 + 1 && y.1 ≤ x.1 + 1) && (x.2 == y.2 || neighborB edges x.2 y.2)

/-- Weak-threshold crossing grid: a cell is weak iff it is inside the
recording and its sample crosses the weak threshold. -/
def weakB (R : Rec) (p : Polarity) (w : ℚ) (x : Cell) : Bool :=
  decide (x.1 < R.T) && decide (x.2 < R.C) && crosses p w (R.sig x.1 x.2)

/-- Strong-threshold crossing grid. -/
def strongB (R : Rec) (p : Polarity) (s : ℚ) (x : Cell) : Bool :=
  decide (x.1 < R.T) && decide (x.2 < R.C) && crosses p s (R.sig x.1 x.2)

/-- All cells of the recording grid, enumerated in row-major order. -/
def cellList (R : Rec) : List Cell :=
  (List.range R.T).flatMap (fun t => (List.range R.C).map (fun c => (t, c)))

/-- Weak cells whose time index lies in the half-open window [lo, hi). -/
def weakList (R : Rec) (p : Polarity) (w : ℚ) (lo hi : ℕ) : List Cell :=
  (cellList R).filter (fun x => weakB R p w x && (decide (lo ≤ x.1) && decide (x.1 < hi)))

/-- The weak cells of a window, as a finite set. -/
def weakSet (R : Rec) (p : Polarity) (w : ℚ) (lo hi : ℕ) : Finset Cell :=
  (weakList R p w lo hi).toFinset

/-- One step of flood fill: all cells of `W` adjacent to some cell of
`S` (spec section 4.4 step 2: standard flood-fill). -/
def grow (edges : List (ℕ × ℕ)) (W S : Finset Cell) : Finset Cell :=
  W.filter (fun y => ∃ x ∈ S, adjacentB edges x y = true)

/-- Modelled from the spec: the connected component of cell `x` inside
the weak-cell set `W`, computed by flood fill iterated enough times to
reach the fixed point (spec section 4.4 step 2). -/
def component (edges : List (ℕ × ℕ)) (W : Finset Cell) (x : Cell) : Finset Cell :=
  (grow edges W)^[W.card] ({x} ∩ W)

/-- One step of connectivity: move to an adjacent cell of `W`. -/
def Step (edges : List (ℕ × ℕ)) (W : Finset Cell) (a b : Cell) : Prop :=
  b ∈ W ∧ adjacentB edges a b = true

/-- Reachability inside `W` through the spatio-temporal adjacency. -/
def ReachIn (edges : List (ℕ × ℕ)) (W : Finset Cell) (x y : Cell) : Prop :=
  Relation.ReflTransGen (Step edges W) x y

/-! Streaming pipeline: chunk windows, per-chunk detection, and the
chunk-boundary reconciler, modelled from spec sections 4.4 and 4.5. -/

/-- Adjacency between two components: some cell of one is adjacent to
some cell of the other (spec section 4.5 step 1, evaluated in absolute
coordinates). -/
def CompAdj (edges : List (ℕ × ℕ)) (g h : Finset Cell) : Prop :=
  ∃ x ∈ g, ∃ y ∈ h, adjacentB edges x y = true

instance (edges : List (ℕ × ℕ)) (g h : Finset Cell) :
    Decidable (CompAdj edges g h) := by
  unfold CompAdj
  infer_instance

/-- The component touches time index `m` or later (used for the trailing
margin test of spec section 4.5 step 3). -/
def TouchesFrom (m : ℕ) (g : Finset Cell) : Prop := ∃ c ∈ g, m ≤ c.1

instance (m : ℕ) (g : Finset Cell) : Decidable (TouchesFrom m g) := by
  unfold TouchesFrom
  infer_instance

/-- The component has a cell strictly before time index `m` (used for
the leading margin test of spec section 4.5 step 1). -/
def MinBefore (m : ℕ) (g : Finset Cell) : Prop := ∃ c ∈ g, c.1 < m

instance (m : ℕ) (g : Finset Cell) : Decidable (MinBefore m g) := by
  unfold MinBefore
  infer_instance

/-- The component contains at least one strong-crossing cell (spec
section 4.4 step 3). -/
def HasStrong (R : Rec) (p : Polarity) (s : ℚ) (g : Finset Cell) : Prop :=
  ∃ c ∈ g, strongB R p s c = true

instance (R : Rec) (p : Polarity) (s : ℚ) (g : Finset Cell) :
    Decidable (HasStrong R p s g) := by
  unfold HasStrong
  infer_instance

/-- The component reaches the core sample range of chunk `k` (spec
section 4.4 edge policy: components entirely inside the margin are
dropped). -/
def HitsCore (cs k : ℕ) (g : Finset Cell) : Prop :=
  ∃ c ∈ g, k * cs ≤ c.1 ∧ c.1 < (k + 1) * cs

instance (cs k : ℕ) (g : Finset Cell) : Decidable (HitsCore cs k g) := by
  unfold HitsCore
  infer_instance

/-- Temporal extent bound of a component: any two member cells are at
most `m` samples apart. -/
def ExtentLe (g : Finset Cell) (m : ℕ) : Prop :=
  ∀ a ∈ g, ∀ b ∈ g, a.1 ≤ b.1 + m

instance (g : Finset Cell) (m : ℕ) : Decidable (ExtentLe g m) := by
  unfold ExtentLe
  infer_instance

/-- Modelled from the spec: per-chunk detection (spec section 4.4).
Chunk `k` owns the core range [k*cs, (k+1)*cs) and sees the window
extended by the overlap margin `ov` on both sides (clipped at the
recording start by truncated subtraction).  It returns each connected
component of the window's weak grid exactly once, keeping only
components with a strong cell that reach the core range. -/
def detectComps (R : Rec) (p : Polarity) (w s : ℚ) (cs ov k : ℕ) :
    List (Finset Cell) :=
  let lo := k * cs - ov
  let hi := (k + 1) * cs + ov
  (((weakList R p w lo hi).map (component R.edges (weakSet R p w lo hi))).dedup).filter
    (fun g => decide (HasStrong R p s g) && decide (HitsCore cs k g))

/-- Modelled from the spec: merge a new component with every held-over
component adjacent to it (spec section 4.5 step 1: union of member
cells). -/
def mergeHeld (edges : List (ℕ × ℕ)) (held : List (Finset Cell))
    (g : Finset Cell) : Finset Cell :=
  (held.filter (fun h => decide (CompAdj edges h g))).foldl (fun a b => a ∪ b) g

/-- Modelled from the spec: the chunk-boundary reconciler step (spec
section 4.5).  State is (finalized so far, held over).  New components
whose minimal time index is in the leading margin are merged with
adjacent held components; held components adjacent to no new component
are finalized; new components touching the trailing margin are held for
the next chunk, all others are finalized now. -/
def reconcileStep (edges : List (ℕ × ℕ)) (cs k : ℕ)
    (st : List (Finset Cell) × List (Finset Cell))
    (comps : List (Finset Cell)) :
    List (Finset Cell) × List (Finset Cell) :=
  let merged := comps.map
    (fun g => if MinBefore (k * cs) g then mergeHeld edges st.2 g else g)
  let deadHeld := st.2.filter
    (fun h => !(comps.any (fun g => decide (CompAdj edges h g))))
  let emitNow := merged.filter (fun g => !(decide (TouchesFrom ((k + 1) * cs) g)))
  let heldNext := merged.filter (fun g => decide (TouchesFrom ((k + 1) * cs) g))
  (st.1 ++ deadHeld ++ emitNow, heldNext)

/-- Number of chunks needed to cover `T` samples with owned core ranges
of `cs` samples each. -/
def numChunks (T cs : ℕ) : ℕ := (T + cs - 1) / cs

/-- Modelled from the spec: the full streaming detection run (spec
sections 4.4 and 4.5): process every chunk in recording order through
the reconciler, then flush the still-held components at end of
recording (spec section 4.5 step 4). -/
def runChunks (R : Rec) (p : Polarity) (w s : ℚ) (cs ov : ℕ) :
    List (Finset Cell) :=
  let st := (List.range (numChunks R.T cs)).foldl
    (fun st k => reconcileStep R.edges cs k st (detectComps R p w s cs ov k))
    ([], [])
  st.1 ++ st.2

/-- Modelled from the spec: whole-recording detection in a single pass:
every connected component of the full weak grid that contains a strong
cell, each exactly once. -/
def globalComps (R : Rec) (p : Polarity) (w s : ℚ) : List (Finset Cell) :=
  (((weakList R p w 0 R.T).map (component R.edges (weakSet R p w 0 R.T))).dedup).filter
    (fun g => decide (HasStrong R p s g))

/-! The reconciler invariant: after the chunks owning samples below `m`
have been processed, the finalized list holds exactly the whole-recording
components that end before `m`, and the held list exactly those
straddling `m`, each exactly once. -/

/-- Invariant on the reconciler state after processing all chunks whose
core range lies below time `m`. -/
def StateInv (R : Rec) (p : Polarity) (w s : ℚ) (m : ℕ)
    (st : List (Finset Cell) × List (Finset Cell)) : Prop :=
  st.1.Nodup ∧ st.2.Nodup ∧
  (∀ g, g ∈ st.1 ↔ g ∈ globalComps R p w s ∧ ∀ c ∈ g, c.1 < m) ∧
  (∀ g, g ∈ st.2 ↔ g ∈ globalComps R p w s ∧ MinBefore m g ∧ TouchesFrom m g)

/-! The spike resolver, modelled from spec section 4.6. -/

/-- Extremum magnitude of the component on one channel: the largest
absolute sample value among the component's cells on that channel
(0 when the channel is untouched). -/
def chanMag (R : Rec) (g : Finset Cell) (ch : ℕ) : ℚ :=
  Finset.fold max 0 (fun c => |R.sig c.1 c.2|) (g.filter (fun c => c.2 = ch))

/-- The component touches the channel. -/
def chanTouched (g : Finset Cell) (ch : ℕ) : Bool :=
  decide (∃ c ∈ g, c.2 = ch)

/-- Modelled from the spec: the mask interpolation of spec section 4.6:
0 below the weak threshold, 1 above the strong threshold, linear in
between. -/
def maskInterp (w s v : ℚ) : ℚ :=
  if v ≤ w then 0 else if s ≤ v then 1 else (v - w) / (s - w)

/-- Modelled from the spec: the per-channel mask of a finalized
component (spec section 4.6); channels never touched by the component
get mask 0. -/
def spikeMask (R : Rec) (w s : ℚ) (g : Finset Cell) (ch : ℕ) : ℚ :=
  if chanTouched g ch then maskInterp w s (chanMag R g ch) else 0

/-- Extremum magnitude over the whole component. -/
def compMag (R : Rec) (g : Finset Cell) : ℚ :=
  Finset.fold max 0 (fun c => |R.sig c.1 c.2|) g

/-- Modelled from the spec: the anchor time of the resolved spike: the
time index of the component's most extreme sample (spec section 4.6);
ties resolved to the earliest such time. -/
def anchorTime (R : Rec) (g : Finset Cell) : ℕ :=
  Finset.fold min R.T Prod.fst (g.filter (fun c => |R.sig c.1 c.2| = compMag R g))

/-! Embeddings from src/spikedetekt2/core/main.py and the modelled
collaborators it calls. -/

/-- Comparison side of apply_threshold, as in the source call sites. -/
inductive Side where
  | above
  | below
deriving DecidableEq, Repr

/-- Modelled from the spec: apply_threshold performs an elementwise
comparison of the filtered sample against the given threshold value on
the given side (spec section 4.4 step 1). -/
def apply_threshold (x th : ℚ) : Side → Bool
  | .below => x < th
  | .above => th < x

/-- Embedding of main.py lines 62 to 64: the strong grid is built by
apply_threshold against minus the strong threshold with side below.
The polarity argument stands for the configured detect_spikes value,
which the source lines do not consult. -/
def mainStrongGrid (_pol : Polarity) (ts x : ℚ) : Bool :=
  apply_threshold x (-ts) Side.below

/-- Embedding of main.py lines 65 to 66: the weak grid, same shape. -/
def mainWeakGrid (_pol : Polarity) (tw x : ℚ) : Bool :=
  apply_threshold x (-tw) Side.below

/-- Errors the embedded run can raise: the experiment assertion of
main.py lines 22 and 23, or a missing required PRM key. -/
inductive RunError where
  | assertionError
  | keyError (k : String)
deriving DecidableEq, Repr

/-- Reading a required PRM dictionary key (main.py lines 26 and 29 to
31 index the dictionary directly, which raises on a missing key). -/
def lookupPrm (prm : List (String × ℚ)) (k : String) : Except RunError ℚ :=
  match prm.lookup k with
  | some v => .ok v
  | none => .error (.keyError k)

/-- Reading an optional PRM key with a default, as dict.get does. -/
def lookupPrmD (prm : List (String × ℚ)) (k : String) (d : ℚ) : ℚ :=
  (prm.lookup k).getD d

/-- Modelled from the spec: the robust amplitude scale of the threshold
estimator (spec section 4.2): the median of the absolute values of the
excerpted filtered samples. -/
def madScale (xs : List ℚ) : ℚ :=
  (List.insertionSort (fun a b => a ≤ b) (xs.map (fun v => |v|))).getD
    (xs.length / 2) 0

/-- Modelled from the spec: excerpt time indices uniformly scattered
across the recording (spec section 4.2). -/
def excerptTimes (T n len : ℕ) : List ℕ :=
  ((List.range n).flatMap
    (fun i => (List.range len).map (fun j => i * (T / n) + j))).filter
    (fun t => decide (t < T))

/-- Modelled from the spec: the excerpted filtered sample values over
all channels. -/
def excerptValues (sig : ℕ → ℕ → ℚ) (T C n len : ℕ) : List ℚ :=
  (excerptTimes T n len).flatMap (fun t => (List.range C).map (fun c => sig t c))

/-- Modelled from the spec: get_threshold (spec section 4.2): the
robust scale times the strong and weak multipliers,
computed once per run from excerpts of the whole recording. -/
def get_threshold (sig : ℕ → ℕ → ℚ) (T C n len : ℕ) (ms mw : ℚ) : ℚ × ℚ :=
  (madScale (excerptValues sig T C n len) * ms,
   madScale (excerptValues sig T C n len) * mw)

/-- Chunk size used by run: the optional chunk_size PRM value, with the
whole recording as default (main.py line 27 reads it with dict.get). -/
def mainChunkSize (prm : List (String × ℚ)) (raw : Rec) : ℕ :=
  ((prm.lookup "chunk_size").map (fun q => (⌊q⌋).toNat)).getD raw.T

/-- Chunk overlap used by run (main.py line 28, default 0). -/
def mainChunkOverlap (prm : List (String × ℚ)) : ℕ :=
  ((prm.lookup "chunk_overlap").map (fun q => (⌊q⌋).toNat)).getD 0

/-- The filtered signal of the run: the band-pass filter (an external
collaborator, spec section 4.3, passed here as a function) built from
the PRM filter parameters, applied to the raw signal (main.py lines 44
to 48 and 60). -/
def mainFiltered (bp : ℚ → ℚ → ℚ → ℚ → (ℕ → ℕ → ℚ) → (ℕ → ℕ → ℚ))
    (prm : List (String × ℚ)) (raw : Rec) : ℕ → ℕ → ℚ :=
  bp (lookupPrmD prm "filter_butter_order" 0) (lookupPrmD prm "sample_rate" 0)
    (lookupPrmD prm "filter_low" 0) (lookupPrmD prm "filter_high" 0) raw.sig

/-- The two thresholds computed once before the chunk loop (main.py
lines 50 to 54). -/
def mainThresholds (bp : ℚ → ℚ → ℚ → ℚ → (ℕ → ℕ → ℚ) → (ℕ → ℕ → ℚ))
    (prm : List (String × ℚ)) (raw : Rec) : ℚ × ℚ :=
  get_threshold (mainFiltered bp prm raw) raw.T raw.C
    (((prm.lookup "nexcerpts").map (fun q => (⌊q⌋).toNat)).getD 1)
    (((prm.lookup "excerpt_size").map (fun q => (⌊q⌋).toNat)).getD 1)
    (lookupPrmD prm "threshold_strong_multiplier" 0)
    (lookupPrmD prm "threshold_weak_multiplier" 0)

/-- Time indices of the full data chunk of chunk `k`, overlap margins
included, clipped to the recording (spec section 3, Chunk). -/
def chunkTimes (T cs ov k : ℕ) : List ℕ :=
  (List.range T).filter
    (fun t => decide (k * cs - ov ≤ t) && decide (t < (k + 1) * cs + ov))

/-- The boolean grid built by apply_threshold with side below over the
given chunk times and all channels (main.py lines 62 to 66). -/
def applyThresholdGrid (sig : ℕ → ℕ → ℚ) (C : ℕ) (times : List ℕ) (th : ℚ) :
    List (List Bool) :=
  times.map (fun t => (List.range C).map (fun c => apply_threshold (sig t c) th Side.below))

/-- Per-chunk record of the embedded run: the threshold pair passed to
apply_threshold for this chunk, and the two grids it produced. -/
structure ChunkOut where
  usedStrong : ℚ
  usedWeak : ℚ
  strong : List (List Bool)
  weak : List (List Bool)
deriving DecidableEq, Repr

/-- The chunk-loop body of run for chunk `k` (main.py lines 56 to 66):
apply the once-computed strong and weak thresholds, negated, with side
below. -/
def mainChunkOut (bp : ℚ → ℚ → ℚ → ℚ → (ℕ → ℕ → ℚ) → (ℕ → ℕ → ℚ))
    (prm : List (String × ℚ)) (raw : Rec) (k : ℕ) : ChunkOut :=
  { usedStrong := (mainThresholds bp prm raw).1
    usedWeak := (mainThresholds bp prm raw).2
    strong := applyThresholdGrid (mainFiltered bp prm raw) raw.C
      (chunkTimes raw.T (mainChunkSize prm raw) (mainChunkOverlap prm) k)
      (-(mainThresholds bp prm raw).1)
    weak := applyThresholdGrid (mainFiltered bp prm raw) raw.C
      (chunkTimes raw.T (mainChunkSize prm raw) (mainChunkOverlap prm) k)
      (-(mainThresholds bp prm raw).2) }

/-- Embedding of run from src/spikedetekt2/core/main.py: first the
experiment assertion (lines 22 and 23), then the required PRM reads
(lines 26 and 29 to 31), then the thresholds are computed once (lines
50 to 54), then every chunk is processed with those same thresholds
(lines 56 to 66).  The band-pass filter builder is an external
collaborator passed as a function. -/
def runMain (bp : ℚ → ℚ → ℚ → ℚ → (ℕ → ℕ → ℚ) → (ℕ → ℕ → ℚ))
    (experiment : Option Unit) (prm : List (String × ℚ)) (raw : Rec) :
    Except RunError (ℚ × ℚ × List ChunkOut) :=
  if experiment.isNone then .error .assertionError
  else do
    let _sample_rate ← lookupPrm prm "sample_rate"
    let _filter_butter_order ← lookupPrm prm "filter_butter_order"
    let _filter_high ← lookupPrm prm "filter_high"
    let _filter_low ← lookupPrm prm "filter_low"
    pure ((mainThresholds bp prm raw).1, (mainThresholds bp prm raw).2,
      (List.range (numChunks raw.T (mainChunkSize prm raw))).map
        (mainChunkOut bp prm raw))

/-! Configuration validation, modelled from spec sections 4.1, 6 and 7. -/

/-- Fatal configuration errors (spec section 7). -/
inductive ConfigError where
  | unknownChannel
  | weakAboveStrong
  | badChunk
  | badPolarity
deriving DecidableEq, Repr

/-- The run configuration consumed at setup (spec section 6): probe
channels and neighbor pairs, threshold multipliers, chunking, and the
detect_polarity string. -/
structure Config where
  channels : List ℕ
  graph : List (ℕ × ℕ)
  strongMult : ℚ
  weakMult : ℚ
  chunk_size : Int
  chunk_overlap : Int
  polarity : String
deriving DecidableEq, Repr

/-- Recognized detect_polarity values (spec section 6). -/
def polarityOf : String → Option Polarity
  | "positive" => some Polarity.positive
  | "negative" => some Polarity.negative
  | "both" => some Polarity.both
  | _ => none

/-- Modelled from the spec: configuration validation, surfaced before
any detection (spec section 7): a ConfigError on a probe edge
referencing an unknown channel, a weak multiplier above the strong
multiplier, a non-positive chunk size or overlap, or an unknown
polarity value. -/
def validateConfig (c : Config) : Except ConfigError Unit :=
  if ¬ (c.graph.all (fun e => c.channels.contains e.1 && c.channels.contains e.2)) then
    .error .unknownChannel
  else if c.strongMult < c.weakMult then .error .weakAboveStrong
  else if c.chunk_size ≤ 0 ∨ c.chunk_overlap ≤ 0 then .error .badChunk
  else if (polarityOf c.polarity).isNone then .error .badPolarity
  else .ok ()

/-- Modelled from the spec: validation runs immediately, before the
detection pipeline; detection output exists only when validation
passed. -/
def detectValidated (c : Config) (R : Rec) (w s : ℚ) :
    Except ConfigError (List (Finset Cell)) := do
  validateConfig c
  match polarityOf c.polarity with
  | some p => pure (runChunks R p w s c.chunk_size.toNat c.chunk_overlap.toNat)
  | none => pure []

/-! The parameter loader, embedded from src/spikedetekt2/utils/params.py.
Dictionaries are association lists over rational values; the
params_default.py script (absent from the sources) is abstracted as a
function of the sample_rate binding, the only name in its evaluation
namespace. -/

/-- Embedding of to_lower: lowercase every key (params.py line 45 via
utils; spec of get_params: resulting keys lowercased). -/
def to_lower (d : List (String × ℚ)) : List (String × ℚ) :=
  d.map (fun kv => (kv.1.toLower, kv.2))

/-- Embedding of load_default_params (params.py lines 31 to 45): the
defaults script is evaluated in a namespace holding only sample_rate,
taken from the given namespace with default 0, and the resulting keys
are lowercased.  The script itself (params_default.py) is not among
the sources and is abstracted as the function `script` from the
sample_rate value to the resulting dictionary. -/
def load_default_params (script : ℚ → List (String × ℚ))
    (ns : List (String × ℚ)) : List (String × ℚ) :=
  to_lower (script ((ns.lookup "sample_rate").getD 0))

/-- Modelled from the spec: get_pydict merges the three parameter
sources by priority: keyword arguments, then the .PRM file dictionary,
then the defaults (docstring of get_params, params.py lines 16 to 21). -/
def get_pydict (fileDict pydict_default kwargs : List (String × ℚ))
    (k : String) : Option ℚ :=
  match kwargs.lookup k with
  | some v => some v
  | none =>
    match fileDict.lookup k with
    | some v => some v
    | none => pydict_default.lookup k

/-- Embedding of get_params (params.py lines 15 to 25): look parameters
up through get_pydict with the defaults evaluated in the kwargs
namespace. -/
def get_params (script : ℚ → List (String × ℚ))
    (fileDict kwargs : List (String × ℚ)) (k : String) : Option ℚ :=
  get_pydict fileDict (load_default_params script kwargs) kwargs k

/-! The concrete scenario of spec section 8: single channel, weak 1.0,
strong 2.0, negative polarity, samples 0, 0, -1.5, -2.5, -1.2, 0, 0. -/

/-- Rational -1.5 as an explicit reduced fraction (kernel evaluation of
the detector never has to normalize a fraction this way). -/
def negOnePointFive : ℚ := ⟨-3, 2, by norm_num, by norm_num⟩

/-- Rational -2.5 as an explicit reduced fraction. -/
def negTwoPointFive : ℚ := ⟨-5, 2, by norm_num, by norm_num⟩

/-- Rational -1.2 as an explicit reduced fraction. -/
def negOnePointTwo : ℚ := ⟨-6, 5, by norm_num, by norm_num⟩

/-- The scenario signal. -/
def sig7 : ℕ → ℕ → ℚ :=
  fun t _ =>
    ([0, 0, negOnePointFive, negTwoPointFive, negOnePointTwo, 0, 0] : List ℚ).getD t 0

/-- The scenario recording: 7 samples, one channel, no probe edges. -/
def R7 : Rec := { T := 7, C := 1, sig := sig7, edges := [] }

/-- C5 fixtures: a trivial band-pass filter, a minimal PRM dictionary
with only the required keys, and a two-sample silent recording. -/
def c5bp : ℚ → ℚ → ℚ → ℚ → (ℕ → ℕ → ℚ) → (ℕ → ℕ → ℚ) :=
  fun _ _ _ _ sg => sg

/-- C5 fixture PRM dictionary. -/
def c5prm : List (String × ℚ) :=
  [("sample_rate", 100), ("filter_butter_order", 3),
   ("filter_high", 9), ("filter_low", 5)]

/-- C5 fixture recording. -/
def c5raw : Rec := { T := 2, C := 1, sig := fun _ _ => 0, edges := [] }

/-- C8 fixture: a probe graph edge referencing channel 1, absent from
the channel list. -/
def c8bad : Config :=
  { channels := [0], graph := [(0, 1)], strongMult := 4, weakMult := 2,
    chunk_size := 100, chunk_overlap := 10, polarity := "negative" }

/-- C10 fixture defaults script. -/
def c10script : ℚ → List (String × ℚ) :=
  fun sr => [("SAMPLE_RATE", sr), ("CHUNK_SIZE", 20000)]

theorem adjacentB_refl (edges : List (ℕ × ℕ)) (x : Cell) :
    adjacentB edges x x = true := by
  simp [adjacentB]

theorem adjacentB_symm (edges : List (ℕ × ℕ)) (x y : Cell) :
    adjacentB edges x y = adjacentB edges y x := by
  refine Bool.eq_iff_iff.mpr ?_
  simp only [adjacentB, Bool.and_eq_true, Bool.or_eq_true, beq_iff_eq,
    decide_eq_true_eq, neighborB]
  constructor
  · rintro ⟨⟨h1, h2⟩, h3⟩
    exact ⟨⟨h2, h1⟩, by tauto⟩
  · rintro ⟨⟨h1, h2⟩, h3⟩
    exact ⟨⟨h2, h1⟩, by tauto⟩

theorem mem_grow (edges : List (ℕ × ℕ)) (W S : Finset Cell) (y : Cell) :
    y ∈ grow edges W S ↔ y ∈ W ∧ ∃ x ∈ S, adjacentB edges x y = true := by
  simp [grow]

theorem grow_subset (edges : List (ℕ × ℕ)) (W S : Finset Cell) :
    grow edges W S ⊆ W := by
  intro y hy
  exact ((mem_grow edges W S y).mp hy).1

theorem subset_grow (edges : List (ℕ × ℕ)) {W S : Finset Cell} (h : S ⊆ W) :
    S ⊆ grow edges W S := by
  intro y hy
  exact (mem_grow edges W S y).mpr ⟨h hy, y, hy, adjacentB_refl edges y⟩

theorem grow_mono (edges : List (ℕ × ℕ)) (W : Finset Cell) {S S' : Finset Cell}
    (h : S ⊆ S') : grow edges W S ⊆ grow edges W S' := by
  intro y hy
  rcases (mem_grow edges W S y).mp hy with ⟨hyW, x, hx, hadj⟩
  exact (mem_grow edges W S' y).mpr ⟨hyW, x, h hx, hadj⟩

theorem grow_empty (edges : List (ℕ × ℕ)) (W : Finset Cell) :
    grow edges W ∅ = ∅ := by
  ext y
  simp [mem_grow]

theorem iterate_grow_subset (edges : List (ℕ × ℕ)) (W S : Finset Cell)
    (h : S ⊆ W) : ∀ n, (grow edges W)^[n] S ⊆ W := by
  intro n
  cases n with
  | zero => simpa using h
  | succ m =>
      have heq : (grow edges W)^[m + 1] S = grow edges W ((grow edges W)^[m] S) :=
        Function.iterate_succ_apply' _ _ _
      rw [heq]
      exact grow_subset edges W _

theorem iterate_grow_monotone (edges : List (ℕ × ℕ)) (W S : Finset Cell)
    (h : S ⊆ W) (n : ℕ) : (grow edges W)^[n] S ⊆ (grow edges W)^[n + 1] S := by
  have heq : (grow edges W)^[n + 1] S = grow edges W ((grow edges W)^[n] S) :=
    Function.iterate_succ_apply' _ _ _
  rw [heq]
  exact subset_grow edges (iterate_grow_subset edges W S h n)

theorem iterate_grow_le (edges : List (ℕ × ℕ)) (W S : Finset Cell)
    (h : S ⊆ W) {m n : ℕ} (hmn : m ≤ n) :
    (grow edges W)^[m] S ⊆ (grow edges W)^[n] S := by
  induction n with
  | zero => simp [Nat.le_zero.mp hmn]
  | succ k ih =>
      rcases Nat.lt_or_ge m (k + 1) with hlt | hge
      · exact (ih (Nat.lt_succ_iff.mp hlt)).trans (iterate_grow_monotone edges W S h k)
      · have hmk : m = k + 1 := le_antisymm hmn hge
        simp [hmk]

theorem iterate_grow_stable (edges : List (ℕ × ℕ)) (W S : Finset Cell)
    {k : ℕ} (hfix : (grow edges W)^[k + 1] S = (grow edges W)^[k] S) :
    ∀ m, k ≤ m → (grow edges W)^[m] S = (grow edges W)^[k] S := by
  intro m hkm
  induction m with
  | zero => simp [Nat.le_zero.mp hkm]
  | succ j ih =>
      rcases Nat.lt_or_ge k (j + 1) with hlt | hge
      · have hkj : k ≤ j := Nat.lt_succ_iff.mp hlt
        have hj := ih hkj
        have heq : (grow edges W)^[j + 1] S = grow edges W ((grow edges W)^[j] S) :=
          Function.iterate_succ_apply' _ _ _
        have heq2 : (grow edges W)^[k + 1] S = grow edges W ((grow edges W)^[k] S) :=
          Function.iterate_succ_apply' _ _ _
        rw [heq, hj, ← heq2, hfix]
      · have hkj : k = j + 1 := le_antisymm hkm hge
        simp [hkj]

theorem grow_fixpoint (edges : List (ℕ × ℕ)) (W S : Finset Cell) (h : S ⊆ W) :
    grow edges W ((grow edges W)^[W.card] S) = (grow edges W)^[W.card] S := by
  classical
  rcases eq_or_ne S ∅ with hS | hS
  · subst hS
    have hfix : ∀ n, (grow edges W)^[n] (∅ : Finset Cell) = ∅ := by
      intro n
      exact Function.iterate_fixed (grow_empty edges W) n
    rw [hfix, grow_empty]
  · by_cases hexists : ∃ k, k ≤ W.card ∧
        (grow edges W)^[k + 1] S = (grow edges W)^[k] S
    · rcases hexists with ⟨k, hk, hfix⟩
      have hstable := iterate_grow_stable edges W S hfix W.card hk
      have hstable2 := iterate_grow_stable edges W S hfix (W.card + 1)
        (hk.trans (Nat.le_succ _))
      have heq : (grow edges W)^[W.card + 1] S
          = grow edges W ((grow edges W)^[W.card] S) :=
        Function.iterate_succ_apply' _ _ _
      rw [← heq, hstable2, hstable]
    · push_neg at hexists
      have hstrict : ∀ k, k ≤ W.card →
          k + S.card ≤ ((grow edges W)^[k] S).card := by
        intro k
        induction k with
        | zero => simp
        | succ j ih =>
            intro hj
            have hje : j ≤ W.card := Nat.le_of_succ_le hj
            have hmono := iterate_grow_monotone edges W S h j
            have hne := hexists j hje
            have hssub : (grow edges W)^[j] S ⊂ (grow edges W)^[j + 1] S :=
              ⟨hmono, fun hsub => hne (le_antisymm hsub hmono)⟩
            have hlt := Finset.card_lt_card hssub
            have hih := ih hje
            omega
      have hcard := hstrict W.card (Nat.le_refl _)
      have hle : ((grow edges W)^[W.card] S).card ≤ W.card :=
        Finset.card_le_card (iterate_grow_subset edges W S h W.card)
      have hpos : 0 < S.card := Finset.card_pos.mpr (Finset.nonempty_iff_ne_empty.mpr hS)
      omega

theorem mem_component_of_reach (edges : List (ℕ × ℕ)) (W : Finset Cell)
    {x y : Cell} (hx : x ∈ W) (h : ReachIn edges W x y) :
    y ∈ component edges W x := by
  have hS : ({x} ∩ W : Finset Cell) ⊆ W := Finset.inter_subset_right
  induction h with
  | refl =>
      have hx0 : x ∈ ({x} ∩ W : Finset Cell) := by
        simp [Finset.mem_inter, hx]
      exact iterate_grow_le edges W _ hS (Nat.zero_le _) hx0
  | tail hab hstep ih =>
      rcases hstep with ⟨hbW, hadj⟩
      have hfix := grow_fixpoint edges W ({x} ∩ W) hS
      rw [component, ← hfix]
      exact (mem_grow edges W _ _).mpr ⟨hbW, _, ih, hadj⟩

theorem reach_of_mem_component (edges : List (ℕ × ℕ)) (W : Finset Cell)
    {x y : Cell} (hy : y ∈ component edges W x) :
    ReachIn edges W x y := by
  have hgen : ∀ n z, z ∈ (grow edges W)^[n] ({x} ∩ W) → ReachIn edges W x z := by
    intro n
    induction n with
    | zero =>
        intro z hz
        simp only [Function.iterate_zero, id, Finset.mem_inter,
          Finset.mem_singleton] at hz
        exact hz.1 ▸ Relation.ReflTransGen.refl
    | succ m ih =>
        intro z hz
        have heq : (grow edges W)^[m + 1] ({x} ∩ W)
            = grow edges W ((grow edges W)^[m] ({x} ∩ W)) :=
          Function.iterate_succ_apply' _ _ _
        rw [heq] at hz
        rcases (mem_grow edges W _ _).mp hz with ⟨hzW, a, ha, hadj⟩
        exact Relation.ReflTransGen.tail (ih a ha) ⟨hzW, hadj⟩
  exact hgen _ _ hy

theorem mem_component_iff (edges : List (ℕ × ℕ)) (W : Finset Cell)
    {x : Cell} (hx : x ∈ W) (y : Cell) :
    y ∈ component edges W x ↔ ReachIn edges W x y :=
  ⟨reach_of_mem_component edges W, mem_component_of_reach edges W hx⟩

theorem component_subset (edges : List (ℕ × ℕ)) (W : Finset Cell) (x : Cell) :
    component edges W x ⊆ W :=
  iterate_grow_subset edges W _ Finset.inter_subset_right _

theorem mem_component_self (edges : List (ℕ × ℕ)) (W : Finset Cell)
    {x : Cell} (hx : x ∈ W) : x ∈ component edges W x :=
  mem_component_of_reach edges W hx Relation.ReflTransGen.refl

theorem reach_mem (edges : List (ℕ × ℕ)) (W : Finset Cell) {x y : Cell}
    (hx : x ∈ W) (h : ReachIn edges W x y) : y ∈ W := by
  induction h with
  | refl => exact hx
  | tail _ hstep _ => exact hstep.1

theorem reach_symm (edges : List (ℕ × ℕ)) (W : Finset Cell) {x y : Cell}
    (hx : x ∈ W) (h : ReachIn edges W x y) : ReachIn edges W y x := by
  induction h with
  | refl => exact Relation.ReflTransGen.refl
  | tail hab hstep ih =>
      rcases hstep with ⟨hbW, hadj⟩
      have hbmem : _ ∈ W := reach_mem edges W hx hab
      refine Relation.ReflTransGen.head ⟨hbmem, ?_⟩ ih
      rw [adjacentB_symm]
      exact hadj

theorem component_eq_of_mem (edges : List (ℕ × ℕ)) (W : Finset Cell)
    {x y : Cell} (hx : x ∈ W) (hy : y ∈ component edges W x) :
    component edges W y = component edges W x := by
  have hreach : ReachIn edges W x y := reach_of_mem_component edges W hy
  have hyW : y ∈ W := reach_mem edges W hx hreach
  ext z
  rw [mem_component_iff edges W hx, mem_component_iff edges W hyW]
  constructor
  · intro hz
    exact (hreach).trans hz
  · intro hz
    exact (reach_symm edges W hx hreach).trans hz

theorem component_restrict (edges : List (ℕ × ℕ)) {W W' : Finset Cell}
    (hsub : W' ⊆ W) {x : Cell} (hx : x ∈ W')
    (hfit : component edges W x ⊆ W') :
    component edges W' x = component edges W x := by
  have hxW : x ∈ W := hsub hx
  ext y
  rw [mem_component_iff edges W' hx, mem_component_iff edges W hxW]
  constructor
  · intro h
    exact Relation.ReflTransGen.mono (fun a b hab => ⟨hsub hab.1, hab.2⟩) h
  · intro h
    induction h with
    | refl => exact Relation.ReflTransGen.refl
    | tail hab hstep ih =>
        rename_i b c
        have hcW' : c ∈ W' := by
          refine hfit ?_
          exact mem_component_of_reach edges W hxW (Relation.ReflTransGen.tail hab hstep)
        exact Relation.ReflTransGen.tail ih ⟨hcW', hstep.2⟩

/-! Membership characterizations. -/

theorem mem_cellList (R : Rec) (x : Cell) :
    x ∈ cellList R ↔ x.1 < R.T ∧ x.2 < R.C := by
  cases x with
  | mk t c =>
      simp [cellList, List.mem_flatMap, List.mem_map, List.mem_range]

theorem mem_weakList (R : Rec) (p : Polarity) (w : ℚ) (lo hi : ℕ) (x : Cell) :
    x ∈ weakList R p w lo hi ↔ weakB R p w x = true ∧ lo ≤ x.1 ∧ x.1 < hi := by
  constructor
  · intro hx
    rcases List.mem_filter.mp hx with ⟨hcell, hcond⟩
    simp only [Bool.and_eq_true, decide_eq_true_eq] at hcond
    exact ⟨hcond.1, hcond.2.1, hcond.2.2⟩
  · intro ⟨hw, hlo, hhi⟩
    refine List.mem_filter.mpr ⟨?_, ?_⟩
    · have hw2 := hw
      simp only [weakB, Bool.and_eq_true, decide_eq_true_eq] at hw2
      exact (mem_cellList R x).mpr ⟨hw2.1.1, hw2.1.2⟩
    · simp [hw, hlo, hhi]

theorem mem_weakSet (R : Rec) (p : Polarity) (w : ℚ) (lo hi : ℕ) (x : Cell) :
    x ∈ weakSet R p w lo hi ↔ weakB R p w x = true ∧ lo ≤ x.1 ∧ x.1 < hi := by
  rw [weakSet, List.mem_toFinset]
  exact mem_weakList R p w lo hi x

theorem weakSet_subset_global (R : Rec) (p : Polarity) (w : ℚ) (lo hi : ℕ) :
    weakSet R p w lo hi ⊆ weakSet R p w 0 R.T := by
  intro x hx
  rcases (mem_weakSet R p w lo hi x).mp hx with ⟨hw, _, _⟩
  refine (mem_weakSet R p w 0 R.T x).mpr ⟨hw, Nat.zero_le _, ?_⟩
  have hw2 := hw
  simp only [weakB, Bool.and_eq_true, decide_eq_true_eq] at hw2
  exact hw2.1.1

theorem globalComps_nodup (R : Rec) (p : Polarity) (w s : ℚ) :
    (globalComps R p w s).Nodup :=
  (List.nodup_dedup _).filter _

theorem mem_globalComps (R : Rec) (p : Polarity) (w s : ℚ) (g : Finset Cell) :
    g ∈ globalComps R p w s ↔
      (∃ x ∈ weakSet R p w 0 R.T,
        g = component R.edges (weakSet R p w 0 R.T) x) ∧ HasStrong R p s g := by
  constructor
  · intro hg
    rcases List.mem_filter.mp hg with ⟨hmem, hstrong⟩
    rcases List.mem_map.mp (List.mem_dedup.mp hmem) with ⟨x, hx, hgx⟩
    refine ⟨⟨x, (List.mem_toFinset).mpr hx, hgx.symm⟩, ?_⟩
    simpa using hstrong
  · intro ⟨⟨x, hx, hgx⟩, hstrong⟩
    refine List.mem_filter.mpr ⟨?_, by simpa using hstrong⟩
    refine List.mem_dedup.mpr (List.mem_map.mpr ⟨x, ?_, hgx.symm⟩)
    exact (List.mem_toFinset).mp hx

theorem globalComps_subset (R : Rec) (p : Polarity) (w s : ℚ)
    {g : Finset Cell} (hg : g ∈ globalComps R p w s) :
    g ⊆ weakSet R p w 0 R.T := by
  rcases (mem_globalComps R p w s g).mp hg with ⟨⟨x, hx, hgx⟩, _⟩
  rw [hgx]
  exact component_subset _ _ _

theorem globalComps_nonempty (R : Rec) (p : Polarity) (w s : ℚ)
    {g : Finset Cell} (hg : g ∈ globalComps R p w s) : g.Nonempty := by
  rcases (mem_globalComps R p w s g).mp hg with ⟨⟨x, hx, hgx⟩, _⟩
  exact ⟨x, hgx ▸ mem_component_self _ _ hx⟩

theorem globalComps_time_lt (R : Rec) (p : Polarity) (w s : ℚ)
    {g : Finset Cell} (hg : g ∈ globalComps R p w s)
    {c : Cell} (hc : c ∈ g) : c.1 < R.T := by
  have := (mem_weakSet R p w 0 R.T c).mp (globalComps_subset R p w s hg hc)
  exact this.2.2

theorem component_mono (edges : List (ℕ × ℕ)) {W W' : Finset Cell}
    (hsub : W' ⊆ W) {x : Cell} (hx : x ∈ W') :
    component edges W' x ⊆ component edges W x := by
  intro y hy
  refine mem_component_of_reach edges W (hsub hx) ?_
  exact Relation.ReflTransGen.mono (fun a b hab => ⟨hsub hab.1, hab.2⟩)
    (reach_of_mem_component edges W' hy)

theorem comp_of_mem_global (R : Rec) (p : Polarity) (w s : ℚ)
    {g : Finset Cell} (hg : g ∈ globalComps R p w s) {c : Cell} (hc : c ∈ g) :
    component R.edges (weakSet R p w 0 R.T) c = g := by
  rcases (mem_globalComps R p w s g).mp hg with ⟨⟨x, hx, hgx⟩, _⟩
  subst hgx
  exact component_eq_of_mem R.edges _ hx hc

theorem global_adj_eq (R : Rec) (p : Polarity) (w s : ℚ)
    {g h : Finset Cell} (hg : g ∈ globalComps R p w s)
    (hh : h ∈ globalComps R p w s) (hadj : CompAdj R.edges g h) : g = h := by
  rcases hadj with ⟨x, hx, y, hy, hxy⟩
  have hyW : y ∈ weakSet R p w 0 R.T := globalComps_subset R p w s hh hy
  have hxW : x ∈ weakSet R p w 0 R.T := globalComps_subset R p w s hg hx
  have hcompx : component R.edges (weakSet R p w 0 R.T) x = g :=
    comp_of_mem_global R p w s hg hx
  have hyg : y ∈ g := by
    rw [← hcompx]
    exact mem_component_of_reach R.edges _ hxW
      (Relation.ReflTransGen.single ⟨hyW, hxy⟩)
  have h1 : component R.edges (weakSet R p w 0 R.T) y = h :=
    comp_of_mem_global R p w s hh hy
  have h2 : component R.edges (weakSet R p w 0 R.T) y = g :=
    comp_of_mem_global R p w s hg hyg
  rw [← h1, h2]

theorem global_self_adj (edges : List (ℕ × ℕ)) {g : Finset Cell}
    (h : g.Nonempty) : CompAdj edges g g := by
  rcases h with ⟨x, hx⟩
  exact ⟨x, hx, x, hx, adjacentB_refl edges x⟩

theorem global_fits_window (R : Rec) (p : Polarity) (w s : ℚ)
    {g : Finset Cell} (hg : g ∈ globalComps R p w s) {cs ov k : ℕ}
    (hov : ExtentLe g ov) (hcore : HitsCore cs k g) :
    g ⊆ weakSet R p w (k * cs - ov) ((k + 1) * cs + ov) := by
  rcases hcore with ⟨c0, hc0, hc0lo, hc0hi⟩
  intro c hc
  have hcw := (mem_weakSet R p w 0 R.T c).mp (globalComps_subset R p w s hg hc)
  refine (mem_weakSet R p w _ _ c).mpr ⟨hcw.1, ?_, ?_⟩
  · have := hov c0 hc0 c hc
    omega
  · have := hov c hc c0 hc0
    omega

theorem detectComps_nodup (R : Rec) (p : Polarity) (w s : ℚ) (cs ov k : ℕ) :
    (detectComps R p w s cs ov k).Nodup :=
  (List.nodup_dedup _).filter _

theorem mem_detectComps (R : Rec) (p : Polarity) (w s : ℚ) (cs ov k : ℕ)
    (g : Finset Cell) :
    g ∈ detectComps R p w s cs ov k ↔
      (∃ x ∈ weakSet R p w (k * cs - ov) ((k + 1) * cs + ov),
        g = component R.edges (weakSet R p w (k * cs - ov) ((k + 1) * cs + ov)) x)
      ∧ HasStrong R p s g ∧ HitsCore cs k g := by
  constructor
  · intro hg
    rcases List.mem_filter.mp hg with ⟨hmem, hcond⟩
    simp only [Bool.and_eq_true, decide_eq_true_eq] at hcond
    rcases List.mem_map.mp (List.mem_dedup.mp hmem) with ⟨x, hx, hgx⟩
    exact ⟨⟨x, (List.mem_toFinset).mpr hx, hgx.symm⟩, hcond.1, hcond.2⟩
  · intro ⟨⟨x, hx, hgx⟩, hstrong, hcore⟩
    refine List.mem_filter.mpr ⟨?_, ?_⟩
    · refine List.mem_dedup.mpr (List.mem_map.mpr ⟨x, ?_, hgx.symm⟩)
      exact (List.mem_toFinset).mp hx
    · simp only [Bool.and_eq_true, decide_eq_true_eq]
      exact ⟨hstrong, hcore⟩

/-- Central characterization: with chunk size and overlap at least the
extent of every (strong) component, chunk `k` detects exactly the
whole-recording components that reach its core range. -/
theorem mem_detectComps_iff (R : Rec) (p : Polarity) (w s : ℚ) (cs ov k : ℕ)
    (hext : ∀ g ∈ globalComps R p w s, ExtentLe g ov) (g : Finset Cell) :
    g ∈ detectComps R p w s cs ov k ↔
      g ∈ globalComps R p w s ∧ HitsCore cs k g := by
  have hWsub : weakSet R p w (k * cs - ov) ((k + 1) * cs + ov) ⊆
      weakSet R p w 0 R.T := weakSet_subset_global R p w _ _
  constructor
  · intro hg
    rcases (mem_detectComps R p w s cs ov k g).mp hg with
      ⟨⟨x, hx, hgx⟩, hstrong, hcore⟩
    have hxg : x ∈ g := hgx ▸ mem_component_self R.edges _ hx
    set G := component R.edges (weakSet R p w 0 R.T) x with hGdef
    have hsubG : g ⊆ G := hgx ▸ component_mono R.edges hWsub hx
    have hGmem : G ∈ globalComps R p w s := by
      refine (mem_globalComps R p w s G).mpr ⟨⟨x, hWsub hx, hGdef⟩, ?_⟩
      rcases hstrong with ⟨c, hc, hcs'⟩
      exact ⟨c, hsubG hc, hcs'⟩
    have hGcore : HitsCore cs k G := by
      rcases hcore with ⟨c, hc, hc1, hc2⟩
      exact ⟨c, hsubG hc, hc1, hc2⟩
    have hfit : G ⊆ weakSet R p w (k * cs - ov) ((k + 1) * cs + ov) :=
      global_fits_window R p w s hGmem (hext G hGmem) hGcore
    have hrestrict := component_restrict R.edges hWsub hx (hGdef ▸ hfit)
    have hgG : g = G := by
      rw [hgx, hrestrict]
    rw [hgG]
    exact ⟨hGmem, hGcore⟩
  · intro ⟨hg, hcore⟩
    have hfit : g ⊆ weakSet R p w (k * cs - ov) ((k + 1) * cs + ov) :=
      global_fits_window R p w s hg (hext g hg) hcore
    rcases hcore with ⟨c0, hc0, hc0lo, hc0hi⟩
    have hc0W : c0 ∈ weakSet R p w 0 R.T := globalComps_subset R p w s hg hc0
    have hcomp : component R.edges (weakSet R p w 0 R.T) c0 = g :=
      comp_of_mem_global R p w s hg hc0
    have hc0Wk : c0 ∈ weakSet R p w (k * cs - ov) ((k + 1) * cs + ov) :=
      hfit hc0
    have hrestrict := component_restrict R.edges hWsub hc0Wk (hcomp ▸ hfit)
    refine (mem_detectComps R p w s cs ov k g).mpr
      ⟨⟨c0, hc0Wk, ?_⟩, ?_, ⟨c0, hc0, hc0lo, hc0hi⟩⟩
    · rw [hrestrict, hcomp]
    · rcases (mem_globalComps R p w s g).mp hg with ⟨_, hstrong⟩
      exact hstrong

theorem foldl_union_const {g : Finset Cell} :
    ∀ (l : List (Finset Cell)) (acc : Finset Cell), (∀ x ∈ l, x = g) → acc = g →
      l.foldl (fun a b => a ∪ b) acc = g := by
  intro l
  induction l with
  | nil => intro acc _ hacc; simpa using hacc
  | cons x xs ih =>
      intro acc hall hacc
      have hx : x = g := hall x (List.mem_cons_self x xs)
      have : acc ∪ x = g := by rw [hacc, hx, Finset.union_self]
      exact ih _ (fun y hy => hall y (List.mem_cons_of_mem x hy)) this

theorem mergeHeld_eq_self (R : Rec) (p : Polarity) (w s : ℚ)
    {held : List (Finset Cell)} {g : Finset Cell}
    (hheld : ∀ h ∈ held, h ∈ globalComps R p w s)
    (hg : g ∈ globalComps R p w s) :
    mergeHeld R.edges held g = g := by
  unfold mergeHeld
  refine foldl_union_const _ g ?_ rfl
  intro x hx
  rcases List.mem_filter.mp hx with ⟨hxheld, hxadj⟩
  exact global_adj_eq R p w s (hheld x hxheld) hg (of_decide_eq_true hxadj)

/-- One reconciler step preserves the invariant, advancing the frontier
by one chunk's core range. -/
theorem reconcile_preserves (R : Rec) (p : Polarity) (w s : ℚ) (cs ov k : ℕ)
    (hext_ov : ∀ g ∈ globalComps R p w s, ExtentLe g ov)
    (hext_cs : ∀ g ∈ globalComps R p w s, ExtentLe g cs)
    {st : List (Finset Cell) × List (Finset Cell)}
    (hinv : StateInv R p w s (k * cs) st) :
    StateInv R p w s ((k + 1) * cs)
      (reconcileStep R.edges cs k st (detectComps R p w s cs ov k)) := by
  obtain ⟨hEnd, hHnd, hEmem, hHmem⟩ := hinv
  have hDchar := mem_detectComps_iff R p w s cs ov k hext_ov
  have hDnd := detectComps_nodup R p w s cs ov k
  -- every held component is detected again in this chunk
  have hHsubD : ∀ h ∈ st.2, h ∈ detectComps R p w s cs ov k := by
    intro h hh
    rcases (hHmem h).mp hh with ⟨hG, ⟨b, hb, hb1⟩, ⟨c, hc, hc1⟩⟩
    refine (hDchar h).mpr ⟨hG, ⟨c, hc, hc1, ?_⟩⟩
    have h1 := hext_cs h hG c hc b hb
    have h2 : (k + 1) * cs = k * cs + cs := by ring
    omega
  -- the merge step is the identity on detected components
  have hmerge : ∀ g ∈ detectComps R p w s cs ov k,
      (if MinBefore (k * cs) g then mergeHeld R.edges st.2 g else g) = g := by
    intro g hgD
    split
    · exact mergeHeld_eq_self R p w s (fun h hh => ((hHmem h).mp hh).1)
        ((hDchar g).mp hgD).1
    · rfl
  have hmerged : (detectComps R p w s cs ov k).map
      (fun g => if MinBefore (k * cs) g then mergeHeld R.edges st.2 g else g)
      = detectComps R p w s cs ov k := by
    rw [List.map_congr_left hmerge]
    simp
  -- no held component is finalized by step 2
  have hdead : st.2.filter
      (fun h => !((detectComps R p w s cs ov k).any
        (fun g => decide (CompAdj R.edges h g)))) = [] := by
    rw [List.filter_eq_nil_iff]
    intro h hh
    have hhD := hHsubD h hh
    have hne : h.Nonempty := globalComps_nonempty R p w s ((hHmem h).mp hh).1
    simp only [Bool.not_eq_true', Bool.not_eq_false, List.any_eq_true]
    exact ⟨h, hhD, decide_eq_true_eq.mpr (global_self_adj R.edges hne)⟩
  unfold reconcileStep
  rw [hmerged, hdead]
  simp only [List.append_nil, List.nil_append]
  refine ⟨?_, ?_, ?_, ?_⟩
  · -- new finalized list is nodup
    refine List.Nodup.append hEnd (hDnd.filter _) ?_
    intro g hgE hgD
    rcases List.mem_filter.mp hgD with ⟨hgD', _⟩
    rcases ((hDchar g).mp hgD').2 with ⟨c, hc, hc1, _⟩
    have := ((hEmem g).mp hgE).2 c hc
    omega
  · exact hDnd.filter _
  · -- membership in the new finalized list
    intro g
    simp only [List.mem_append, List.mem_filter]
    constructor
    · rintro (hgE | ⟨hgD, hcond⟩)
      · rcases (hEmem g).mp hgE with ⟨hG, hall⟩
        refine ⟨hG, fun c hc => ?_⟩
        have h1 := hall c hc
        have h2 : k * cs ≤ (k + 1) * cs := Nat.mul_le_mul_right cs (Nat.le_succ k)
        omega
      · rcases (hDchar g).mp hgD with ⟨hG, _⟩
        refine ⟨hG, fun c hc => ?_⟩
        simp only [Bool.not_eq_true', decide_eq_false_iff_not, TouchesFrom] at hcond
        push_neg at hcond
        exact hcond c hc
    · rintro ⟨hG, hall⟩
      by_cases hx : ∃ c ∈ g, k * cs ≤ c.1
      · rcases hx with ⟨c, hc, hc1⟩
        refine Or.inr ⟨(hDchar g).mpr ⟨hG, ⟨c, hc, hc1, hall c hc⟩⟩, ?_⟩
        simp only [Bool.not_eq_true', decide_eq_false_iff_not, TouchesFrom]
        push_neg
        exact hall
      · push_neg at hx
        exact Or.inl ((hEmem g).mpr ⟨hG, hx⟩)
  · -- membership in the new held list
    intro g
    simp only [List.mem_filter]
    constructor
    · rintro ⟨hgD, hcond⟩
      rcases (hDchar g).mp hgD with ⟨hG, ⟨c, hc, hc1, hc2⟩⟩
      refine ⟨hG, ⟨c, hc, hc2⟩, ?_⟩
      exact of_decide_eq_true hcond
    · rintro ⟨hG, ⟨b, hb, hb1⟩, htouch⟩
      rcases htouch with ⟨c, hc, hc1⟩
      have hbc := hext_cs g hG c hc b hb
      refine ⟨(hDchar g).mpr ⟨hG, ⟨b, hb, ?_, hb1⟩⟩, ?_⟩
      · have h2 : k * cs + cs = (k + 1) * cs := by ring
        omega
      · exact decide_eq_true_eq.mpr ⟨c, hc, hc1⟩

theorem le_numChunks_mul (T cs : ℕ) (hcs : 1 ≤ cs) : T ≤ numChunks T cs * cs := by
  rcases Nat.eq_zero_or_pos T with hT | hT
  · simp [hT]
  · have hT1 : T - 1 + cs = T + cs - 1 := by omega
    have hdiv : (T - 1 + cs) / cs = (T - 1) / cs + 1 := Nat.add_div_right _ (by omega)
    have hdm := Nat.div_add_mod (T - 1) cs
    have hmod : (T - 1) % cs < cs := Nat.mod_lt _ (by omega)
    unfold numChunks
    rw [← hT1, hdiv, Nat.succ_mul, mul_comm ((T - 1) / cs) cs]
    generalize hq : cs * ((T - 1) / cs) = a at hdm ⊢
    generalize hr : (T - 1) % cs = r at hdm hmod
    omega

theorem runChunks_foldl_inv (R : Rec) (p : Polarity) (w s : ℚ) (cs ov : ℕ)
    (hext_ov : ∀ g ∈ globalComps R p w s, ExtentLe g ov)
    (hext_cs : ∀ g ∈ globalComps R p w s, ExtentLe g cs) (n : ℕ) :
    StateInv R p w s (n * cs)
      ((List.range n).foldl
        (fun st k => reconcileStep R.edges cs k st (detectComps R p w s cs ov k))
        ([], [])) := by
  induction n with
  | zero =>
      rw [List.range_zero, List.foldl_nil]
      refine ⟨List.nodup_nil, List.nodup_nil, ?_, ?_⟩
      · intro g
        simp only [List.not_mem_nil, false_iff, not_and]
        intro hG hall
        rcases globalComps_nonempty R p w s hG with ⟨c, hc⟩
        have := hall c hc
        omega
      · intro g
        simp only [List.not_mem_nil, false_iff, not_and]
        intro hG hmin
        rcases hmin with ⟨c, _, hc1⟩
        omega
  | succ n ih =>
      rw [List.range_succ, List.foldl_append, List.foldl_cons, List.foldl_nil]
      exact reconcile_preserves R p w s cs ov n hext_ov hext_cs ih

/-- Main streaming correctness lemma: a valid chunked run finalizes, up
to order, exactly the whole-recording strong components, each once. -/
theorem runChunks_perm_globalComps (R : Rec) (p : Polarity) (w s : ℚ)
    (cs ov : ℕ) (hcs : 1 ≤ cs)
    (hext_ov : ∀ g ∈ globalComps R p w s, ExtentLe g ov)
    (hext_cs : ∀ g ∈ globalComps R p w s, ExtentLe g cs) :
    (runChunks R p w s cs ov).Perm (globalComps R p w s) := by
  obtain ⟨hEnd, hHnd, hEmem, hHmem⟩ :=
    runChunks_foldl_inv R p w s cs ov hext_ov hext_cs (numChunks R.T cs)
  have hT := le_numChunks_mul R.T cs hcs
  set st := (List.range (numChunks R.T cs)).foldl
    (fun st k => reconcileStep R.edges cs k st (detectComps R p w s cs ov k))
    ([], []) with hst
  have hH : st.2 = [] := by
    rw [List.eq_nil_iff_forall_not_mem]
    intro g hg
    rcases (hHmem g).mp hg with ⟨hG, _, ⟨c, hc, hc1⟩⟩
    have := globalComps_time_lt R p w s hG hc
    omega
  have hrun : runChunks R p w s cs ov = st.1 ++ st.2 := rfl
  rw [hrun, hH, List.append_nil]
  rw [List.perm_ext_iff_of_nodup hEnd (globalComps_nodup R p w s)]
  intro g
  rw [hEmem g]
  constructor
  · exact fun h => h.1
  · intro hG
    refine ⟨hG, fun c hc => ?_⟩
    have := globalComps_time_lt R p w s hG hc
    omega

theorem chanMag_nonneg (R : Rec) (g : Finset Cell) (ch : ℕ) :
    0 ≤ chanMag R g ch := by
  unfold chanMag
  exact (Finset.le_fold_max 0).mpr (Or.inl le_rfl)

theorem maskInterp_nonneg (w s v : ℚ) : 0 ≤ maskInterp w s v := by
  unfold maskInterp
  split
  · exact le_rfl
  · split
    · exact zero_le_one
    · rename_i h1 h2
      push_neg at h1 h2
      have hnum : 0 ≤ v - w := by linarith
      have hden : 0 < s - w := by linarith
      positivity

theorem maskInterp_le_one (w s v : ℚ) : maskInterp w s v ≤ 1 := by
  unfold maskInterp
  split
  · exact zero_le_one
  · split
    · exact le_rfl
    · rename_i h1 h2
      push_neg at h1 h2
      have hden : 0 < s - w := by linarith
      rw [div_le_one hden]
      linarith

theorem maskInterp_eq_one_iff {w s v : ℚ} (hws : w < s) :
    maskInterp w s v = 1 ↔ s ≤ v := by
  unfold maskInterp
  split
  · rename_i h1
    constructor
    · intro h; exact absurd h one_ne_zero.symm
    · intro h; linarith
  · split
    · rename_i h1 h2
      simp [h2]
    · rename_i h1 h2
      push_neg at h1 h2
      have hden : 0 < s - w := by linarith
      constructor
      · intro h
        rw [div_eq_one_iff_eq hden.ne'] at h
        linarith
      · intro h; linarith

theorem maskInterp_eq_zero_iff (w s v : ℚ) :
    maskInterp w s v = 0 ↔ v ≤ w := by
  unfold maskInterp
  split
  · rename_i h1
    simp [h1]
  · split
    · rename_i h1 h2
      constructor
      · intro h; exact absurd h one_ne_zero
      · intro h; exact absurd h h1
    · rename_i h1 h2
      push_neg at h1 h2
      have hnum : 0 < v - w := by linarith
      have hden : 0 < s - w := by linarith
      constructor
      · intro h
        exact absurd h (by positivity)
      · intro h; linarith

theorem madScale_nonneg (xs : List ℚ) : 0 ≤ madScale xs := by
  unfold madScale
  rcases hget : (List.insertionSort (fun a b => a ≤ b)
      (xs.map (fun v => |v|))).get? (xs.length / 2) with _ | v
  · rw [List.getD_eq_getD_get?, hget]
    exact le_rfl
  · rw [List.getD_eq_getD_get?, hget]
    have hv : v ∈ List.insertionSort (fun a b => a ≤ b) (xs.map (fun u => |u|)) :=
      List.get?_mem hget
    have hv2 : v ∈ xs.map (fun u => |u|) :=
      (List.perm_insertionSort _ _).mem_iff.mp hv
    rcases List.mem_map.mp hv2 with ⟨u, _, hu⟩
    rw [← hu]
    exact abs_nonneg u

theorem negOnePointFive_eq : negOnePointFive = -(3 / 2) := by
  rw [negOnePointFive, Rat.mk'_eq_divInt]
  norm_num [Rat.divInt_eq_div]

theorem negTwoPointFive_eq : negTwoPointFive = -(5 / 2) := by
  rw [negTwoPointFive, Rat.mk'_eq_divInt]
  norm_num [Rat.divInt_eq_div]

theorem negOnePointTwo_eq : negOnePointTwo = -(6 / 5) := by
  rw [negOnePointTwo, Rat.mk'_eq_divInt]
  norm_num [Rat.divInt_eq_div]

/-! Supporting lemmas for the claims. -/

theorem subset_foldl_union (l : List (Finset Cell)) :
    ∀ acc : Finset Cell, acc ⊆ l.foldl (fun a b => a ∪ b) acc := by
  induction l with
  | nil => intro acc; simp
  | cons x xs ih =>
      intro acc
      exact Finset.subset_union_left.trans (ih (acc ∪ x))

theorem hasStrong_mono (R : Rec) (p : Polarity) (s : ℚ) {g h : Finset Cell}
    (hsub : g ⊆ h) : HasStrong R p s g → HasStrong R p s h :=
  fun ⟨c, hc, hcs⟩ => ⟨c, hsub hc, hcs⟩

theorem detect_hasStrong (R : Rec) (p : Polarity) (w s : ℚ) (cs ov k : ℕ)
    {g : Finset Cell} (hg : g ∈ detectComps R p w s cs ov k) :
    HasStrong R p s g :=
  ((mem_detectComps R p w s cs ov k g).mp hg).2.1

theorem reconcileStep_hasStrong (R : Rec) (p : Polarity) (w s : ℚ)
    (cs ov k : ℕ) {st : List (Finset Cell) × List (Finset Cell)}
    (hst : ∀ g, (g ∈ st.1 ∨ g ∈ st.2) → HasStrong R p s g) :
    ∀ g, (g ∈ (reconcileStep R.edges cs k st (detectComps R p w s cs ov k)).1
      ∨ g ∈ (reconcileStep R.edges cs k st (detectComps R p w s cs ov k)).2) →
      HasStrong R p s g := by
  have hmerged : ∀ g ∈ (detectComps R p w s cs ov k).map
      (fun g => if MinBefore (k * cs) g then mergeHeld R.edges st.2 g else g),
      HasStrong R p s g := by
    intro g hg
    rcases List.mem_map.mp hg with ⟨d, hd, hdg⟩
    have hds := detect_hasStrong R p w s cs ov k hd
    rw [← hdg]
    split
    · exact hasStrong_mono R p s (subset_foldl_union _ d) hds
    · exact hds
  intro g hg
  unfold reconcileStep at hg
  simp only [List.mem_append, List.mem_filter] at hg
  rcases hg with ((h1 | h2) | h3) | h4
  · exact hst g (Or.inl h1)
  · exact hst g (Or.inr h2.1)
  · exact hmerged g h3.1
  · exact hmerged g h4.1

theorem runChunks_hasStrong (R : Rec) (p : Polarity) (w s : ℚ) (cs ov : ℕ) :
    ∀ g ∈ runChunks R p w s cs ov, HasStrong R p s g := by
  suffices hgen : ∀ n, ∀ g,
      (g ∈ ((List.range n).foldl
        (fun st k => reconcileStep R.edges cs k st (detectComps R p w s cs ov k))
        ([], [])).1
      ∨ g ∈ ((List.range n).foldl
        (fun st k => reconcileStep R.edges cs k st (detectComps R p w s cs ov k))
        ([], [])).2) → HasStrong R p s g by
    intro g hg
    rcases List.mem_append.mp hg with h1 | h2
    · exact hgen (numChunks R.T cs) g (Or.inl h1)
    · exact hgen (numChunks R.T cs) g (Or.inr h2)
  intro n
  induction n with
  | zero =>
      rw [List.range_zero, List.foldl_nil]
      intro g hg
      rcases hg with h | h <;> simp at h
  | succ n ih =>
      rw [List.range_succ, List.foldl_append, List.foldl_cons, List.foldl_nil]
      exact reconcileStep_hasStrong R p w s cs ov n ih

theorem numChunks_single_chunk (T : ℕ) : numChunks T (max T 1) ≤ 1 := by
  have h1 : 1 ≤ max T 1 := le_max_right _ _
  have hT : T ≤ max T 1 := le_max_left _ _
  have hlt := (Nat.div_lt_iff_lt_mul (by omega : 0 < max T 1)).mpr
    (by omega : T + max T 1 - 1 < 2 * max T 1)
  unfold numChunks
  exact Nat.lt_succ_iff.mp hlt

theorem extentLe_max_self (R : Rec) (p : Polarity) (w s : ℚ) :
    ∀ g ∈ globalComps R p w s, ExtentLe g (max R.T 1) := by
  intro g hg a ha b hb
  have h1 := globalComps_time_lt R p w s hg ha
  have h2 : R.T ≤ max R.T 1 := le_max_left _ _
  omega

/-! The claims. -/

/-- C1: for every recording and every valid chunking (positive chunk
size, chunk size and overlap at least the temporal extent of every
detected component), the multiset of emitted spike events compared by
anchor time equals that of the whole recording processed as a single
chunk (runChunks with chunk size max T 1 runs at most one chunk, by
numChunks_single_chunk). -/
theorem claim_C1_boundary_invariance (R : Rec) (p : Polarity) (w s : ℚ)
    (cs ov : ℕ) (hcs : 1 ≤ cs)
    (hov : ∀ g ∈ globalComps R p w s, ExtentLe g ov)
    (hcs2 : ∀ g ∈ globalComps R p w s, ExtentLe g cs) :
    ((runChunks R p w s cs ov).map (anchorTime R)).Perm
      ((runChunks R p w s (max R.T 1) (max R.T 1)).map (anchorTime R)) := by
  have h1 := runChunks_perm_globalComps R p w s cs ov hcs hov hcs2
  have h2 := runChunks_perm_globalComps R p w s (max R.T 1) (max R.T 1)
    (le_max_right _ _) (extentLe_max_self R p w s) (extentLe_max_self R p w s)
  exact (h1.trans h2.symm).map _

/-- C1 witness: the scenario recording chunked with size 3 and overlap 3
emits the same anchor multiset as the single-chunk run. -/
theorem claim_C1_boundary_invariance_witness :
    ((runChunks R7 Polarity.negative 1 2 3 3).map (anchorTime R7)).Perm
      ((runChunks R7 Polarity.negative 1 2 (max R7.T 1) (max R7.T 1)).map
        (anchorTime R7)) :=
  claim_C1_boundary_invariance R7 Polarity.negative 1 2 3 3
    (by decide) (by decide) (by decide)

/-- C2: in a valid chunked run every whole-recording component reaches
the output exactly once (count 1), and nothing else is ever emitted: no
double emission across chunk boundaries and no silent loss. -/
theorem claim_C2_exactly_once (R : Rec) (p : Polarity) (w s : ℚ)
    (cs ov : ℕ) (hcs : 1 ≤ cs)
    (hov : ∀ g ∈ globalComps R p w s, ExtentLe g ov)
    (hcs2 : ∀ g ∈ globalComps R p w s, ExtentLe g cs) :
    (∀ g ∈ globalComps R p w s, (runChunks R p w s cs ov).count g = 1)
    ∧ ∀ g ∈ runChunks R p w s cs ov, g ∈ globalComps R p w s := by
  have hperm := runChunks_perm_globalComps R p w s cs ov hcs hov hcs2
  constructor
  · intro g hg
    rw [hperm.count_eq]
    exact List.count_eq_one_of_mem (globalComps_nodup R p w s) hg
  · intro g hg
    exact hperm.mem_iff.mp hg

/-- C2 witness: the scenario spike is delivered exactly once by the
chunked run with chunk size 3 and overlap 3, although its component
spans the boundary at sample 3. -/
theorem claim_C2_exactly_once_witness :
    (runChunks R7 Polarity.negative 1 2 3 3).count
      ({(2, 0), (3, 0), (4, 0)} : Finset Cell) = 1 :=
  (claim_C2_exactly_once R7 Polarity.negative 1 2 3 3
    (by decide) (by decide) (by decide)).1
    ({(2, 0), (3, 0), (4, 0)} : Finset Cell) (by decide)

/-- C3: a connected component of the chunk's weak grid is kept by the
detector iff it contains a strong-crossing cell (among those reaching
the core range, per the margin edge policy), and every component the
whole run ever finalizes contains a strong-crossing cell, so a
component with zero strong cells yields zero emitted spikes. -/
theorem claim_C3_strong_seed_required (R : Rec) (p : Polarity) (w s : ℚ)
    (cs ov k : ℕ) :
    (∀ g, g ∈ detectComps R p w s cs ov k ↔
      (((∃ x ∈ weakSet R p w (k * cs - ov) ((k + 1) * cs + ov),
          g = component R.edges (weakSet R p w (k * cs - ov) ((k + 1) * cs + ov)) x)
        ∧ HitsCore cs k g) ∧ HasStrong R p s g))
    ∧ ∀ g ∈ runChunks R p w s cs ov, HasStrong R p s g := by
  constructor
  · intro g
    rw [mem_detectComps]
    tauto
  · exact runChunks_hasStrong R p w s cs ov

/-- C3 witness: the run on the scenario recording only emits components
holding a strong cell; the scenario component is such a component. -/
theorem claim_C3_strong_seed_required_witness :
    HasStrong R7 Polarity.negative 2 ({(2, 0), (3, 0), (4, 0)} : Finset Cell) :=
  (claim_C3_strong_seed_required R7 Polarity.negative 1 2 3 3 0).2
    ({(2, 0), (3, 0), (4, 0)} : Finset Cell) (by decide)

/-- C4 counterexample: with detect_polarity configured positive, a
sample of +3 against strong threshold 2 is a positive-going crossing
(crosses returns true), yet the grid run builds (apply_threshold
against -2 with side below, main.py line 63) does not mark it: the
claim that the grids follow the configured polarity fails here. -/
theorem claim_C4_polarity_counterexample :
    ¬ (mainStrongGrid Polarity.positive 2 3
        = crosses Polarity.positive 2 3) := by
  decide

/-- C4 amended: run builds both boolean grids by comparing below the
negated threshold for every configured polarity value: the detector
always performs negative-going detection and ignores detect_polarity. -/
theorem claim_C4_polarity_amended (pol : Polarity) (th x : ℚ) :
    mainStrongGrid pol th x = crosses Polarity.negative th x
    ∧ mainWeakGrid pol th x = crosses Polarity.negative th x :=
  ⟨rfl, rfl⟩

/-- C5: when run succeeds, the threshold pair it returns is the pair
computed once before the chunk loop (mainThresholds), every chunk's
record carries exactly that pair and grids built against it, and under
the configured multiplier discipline (0 ≤ weak ≤ strong) the two
scalars satisfy strong ≥ weak ≥ 0. -/
theorem claim_C5_thresholds_once
    (bp : ℚ → ℚ → ℚ → ℚ → (ℕ → ℕ → ℚ) → (ℕ → ℕ → ℚ))
    (prm : List (String × ℚ)) (raw : Rec) (ts tw : ℚ) (outs : List ChunkOut)
    (h : runMain bp (some ()) prm raw = .ok (ts, tw, outs)) :
    ((ts, tw) = mainThresholds bp prm raw
      ∧ outs = (List.range (numChunks raw.T (mainChunkSize prm raw))).map
          (mainChunkOut bp prm raw)
      ∧ ∀ k : ℕ, (mainChunkOut bp prm raw k).usedStrong = ts
          ∧ (mainChunkOut bp prm raw k).usedWeak = tw
          ∧ (mainChunkOut bp prm raw k).strong
              = applyThresholdGrid (mainFiltered bp prm raw) raw.C
                  (chunkTimes raw.T (mainChunkSize prm raw) (mainChunkOverlap prm) k)
                  (-ts)
          ∧ (mainChunkOut bp prm raw k).weak
              = applyThresholdGrid (mainFiltered bp prm raw) raw.C
                  (chunkTimes raw.T (mainChunkSize prm raw) (mainChunkOverlap prm) k)
                  (-tw))
    ∧ (0 ≤ lookupPrmD prm "threshold_weak_multiplier" 0 →
        lookupPrmD prm "threshold_weak_multiplier" 0
          ≤ lookupPrmD prm "threshold_strong_multiplier" 0 →
        0 ≤ tw ∧ tw ≤ ts) := by
  rcases h1 : prm.lookup "sample_rate" with _ | v1 <;>
    rcases h2 : prm.lookup "filter_butter_order" with _ | v2 <;>
      rcases h3 : prm.lookup "filter_high" with _ | v3 <;>
        rcases h4 : prm.lookup "filter_low" with _ | v4 <;>
          simp only [runMain, lookupPrm, h1, h2, h3, h4, Option.isNone_some,
            Bool.false_eq_true, if_false, bind, Except.bind, pure,
            Except.pure, Except.ok.injEq, Prod.mk.injEq] at h <;>
            try exact Except.noConfusion h
  rcases h with ⟨hts, htw, houts⟩
  subst hts htw houts
  refine ⟨⟨rfl, rfl, fun k => ⟨rfl, rfl, rfl, rfl⟩⟩, ?_⟩
  intro hw0 hws
  have hscale := madScale_nonneg (excerptValues (mainFiltered bp prm raw)
    raw.T raw.C (((prm.lookup "nexcerpts").map (fun q => (⌊q⌋).toNat)).getD 1)
    (((prm.lookup "excerpt_size").map (fun q => (⌊q⌋).toNat)).getD 1))
  unfold mainThresholds get_threshold
  constructor
  · exact mul_nonneg hscale hw0
  · exact mul_le_mul_of_nonneg_left hws hscale

/-- C5 witness: on the fixture run the returned weak threshold is
nonnegative and at most the strong threshold. -/
theorem claim_C5_thresholds_once_witness :
    0 ≤ (mainThresholds c5bp c5prm c5raw).2
    ∧ (mainThresholds c5bp c5prm c5raw).2 ≤ (mainThresholds c5bp c5prm c5raw).1 :=
  (claim_C5_thresholds_once c5bp c5prm c5raw
    (mainThresholds c5bp c5prm c5raw).1 (mainThresholds c5bp c5prm c5raw).2
    ((List.range (numChunks c5raw.T (mainChunkSize c5prm c5raw))).map
      (mainChunkOut c5bp c5prm c5raw)) rfl).2
    (by decide) (by decide)

/-- C6: for every component and channel the mask lies in [0,1]; it is 1
iff the channel's extremum magnitude within the component reaches the
strong threshold; it is 0 iff that magnitude is at most the weak
threshold (in particular untouched channels get exactly 0); and
strictly between the thresholds it equals the linear interpolation. -/
theorem claim_C6_mask_interpolation (R : Rec) (w s : ℚ) (g : Finset Cell)
    (ch : ℕ) (h0 : 0 ≤ w) (hws : w < s) :
    (0 ≤ spikeMask R w s g ch ∧ spikeMask R w s g ch ≤ 1)
    ∧ (spikeMask R w s g ch = 1 ↔ s ≤ chanMag R g ch)
    ∧ (spikeMask R w s g ch = 0 ↔ chanMag R g ch ≤ w)
    ∧ (chanTouched g ch = false → spikeMask R w s g ch = 0)
    ∧ (w < chanMag R g ch → chanMag R g ch < s →
        spikeMask R w s g ch = (chanMag R g ch - w) / (s - w)) := by
  by_cases htouch : chanTouched g ch = true
  · have hmask : spikeMask R w s g ch = maskInterp w s (chanMag R g ch) := by
      unfold spikeMask
      rw [if_pos htouch]
    refine ⟨⟨?_, ?_⟩, ?_, ?_, ?_, ?_⟩
    · rw [hmask]; exact maskInterp_nonneg w s _
    · rw [hmask]; exact maskInterp_le_one w s _
    · rw [hmask]; exact maskInterp_eq_one_iff hws
    · rw [hmask]; exact maskInterp_eq_zero_iff w s _
    · intro hfalse
      rw [htouch] at hfalse
      exact absurd hfalse (by simp)
    · intro hlo hhi
      rw [hmask]
      unfold maskInterp
      rw [if_neg (by linarith), if_neg (by linarith)]
  · have htouch2 : chanTouched g ch = false := by
      simpa using htouch
    have hmask : spikeMask R w s g ch = 0 := by
      unfold spikeMask
      rw [if_neg (by simp [htouch2])]
    have hmag : chanMag R g ch = 0 := by
      unfold chanMag
      have hempty : g.filter (fun c => c.2 = ch) = ∅ := by
        rw [Finset.filter_eq_empty_iff]
        intro c hc hceq
        have : chanTouched g ch = true := decide_eq_true_eq.mpr ⟨c, hc, hceq⟩
        rw [htouch2] at this
        exact absurd this (by simp)
      rw [hempty, Finset.fold_empty]
    refine ⟨⟨?_, ?_⟩, ?_, ?_, ?_, ?_⟩
    · rw [hmask]
    · rw [hmask]; exact zero_le_one
    · rw [hmask, hmag]
      constructor
      · intro h01; exact absurd h01.symm one_ne_zero
      · intro hs0; linarith
    · rw [hmask, hmag]
      constructor
      · intro _; exact h0
      · intro _; rfl
    · intro _; exact hmask
    · intro hlo _
      rw [hmag] at hlo
      linarith

/-- C6 witness: the scenario component on its channel, with weak 1 and
strong 2. -/
theorem claim_C6_mask_interpolation_witness :
    spikeMask R7 1 2 ({(2, 0), (3, 0), (4, 0)} : Finset Cell) 0 = 1
      ↔ (2 : ℚ) ≤ chanMag R7 ({(2, 0), (3, 0), (4, 0)} : Finset Cell) 0 :=
  (claim_C6_mask_interpolation R7 1 2 ({(2, 0), (3, 0), (4, 0)} : Finset Cell) 0
    (by decide) (by decide)).2.1

/-- C7: the spec section 8 scenario: samples 0, 0, -1.5, -2.5, -1.2,
0, 0 on one channel with weak 1, strong 2 and negative polarity yield
exactly one detected component, covering time indices 2 through 4, its
spike anchored at index 3 with channel mask exactly 1. -/
theorem claim_C7_scenario :
    globalComps R7 Polarity.negative 1 2 = [({(2, 0), (3, 0), (4, 0)} : Finset Cell)]
    ∧ anchorTime R7 ({(2, 0), (3, 0), (4, 0)} : Finset Cell) = 3
    ∧ spikeMask R7 1 2 ({(2, 0), (3, 0), (4, 0)} : Finset Cell) 0 = 1 :=
  ⟨by decide, by decide, by decide⟩

/-- C8: configuration validation fails with a ConfigError, before any
detection output exists, whenever the probe graph references an unknown
channel, the weak multiplier exceeds the strong multiplier, the chunk
size or overlap is non-positive, or the polarity value is unknown. -/
theorem claim_C8_config_validation (c : Config)
    (hbad : ¬ (c.graph.all
          (fun e => c.channels.contains e.1 && c.channels.contains e.2) = true)
      ∨ c.strongMult < c.weakMult
      ∨ c.chunk_size ≤ 0 ∨ c.chunk_overlap ≤ 0
      ∨ (polarityOf c.polarity).isNone = true) :
    ∃ e : ConfigError, validateConfig c = .error e
      ∧ ∀ (R : Rec) (w s : ℚ), detectValidated c R w s = .error e := by
  have hval : ∃ e : ConfigError, validateConfig c = .error e := by
    unfold validateConfig
    split
    · exact ⟨.unknownChannel, rfl⟩
    · split
      · exact ⟨.weakAboveStrong, rfl⟩
      · split
        · exact ⟨.badChunk, rfl⟩
        · split
          · exact ⟨.badPolarity, rfl⟩
          · rename_i h1 h2 h3 h4
            exfalso
            rcases hbad with hb | hb | hb | hb | hb
            · exact h1 hb
            · exact h2 hb
            · exact h3 (Or.inl hb)
            · exact h3 (Or.inr hb)
            · exact h4 hb
  rcases hval with ⟨e, he⟩
  refine ⟨e, he, fun R w s => ?_⟩
  unfold detectValidated
  rw [he]
  rfl

/-- C8 witness: the fixture configuration is rejected before detection. -/
theorem claim_C8_config_validation_witness :
    ∃ e : ConfigError, validateConfig c8bad = .error e
      ∧ ∀ (R : Rec) (w s : ℚ), detectValidated c8bad R w s = .error e :=
  claim_C8_config_validation c8bad (Or.inl (by decide))

/-- C9: called without an experiment, run fails with the assertion
error for every PRM dictionary (even one with no keys at all) and
every recording: no parameter is read, no data fetched and no output
produced before the assertion. -/
theorem claim_C9_experiment_assertion
    (bp : ℚ → ℚ → ℚ → ℚ → (ℕ → ℕ → ℚ) → (ℕ → ℕ → ℚ))
    (prm : List (String × ℚ)) (raw : Rec) :
    runMain bp none prm raw = .error RunError.assertionError := rfl

/-- C10: get_params resolves each key with priority keyword argument,
then .PRM file, then defaults; and the defaults are the script
evaluated in a namespace holding only sample_rate (0 when absent from
the keyword arguments), keys lowercased. -/
theorem claim_C10_get_params_priority (script : ℚ → List (String × ℚ))
    (fileDict kwargs : List (String × ℚ)) (k : String) :
    (∀ v, kwargs.lookup k = some v →
      get_params script fileDict kwargs k = some v)
    ∧ (kwargs.lookup k = none → ∀ v, fileDict.lookup k = some v →
        get_params script fileDict kwargs k = some v)
    ∧ (kwargs.lookup k = none → fileDict.lookup k = none →
        get_params script fileDict kwargs k =
          (to_lower (script ((kwargs.lookup "sample_rate").getD 0))).lookup k)
    ∧ load_default_params script kwargs
        = to_lower (script ((kwargs.lookup "sample_rate").getD 0)) := by
  refine ⟨?_, ?_, ?_, rfl⟩
  · intro v hv
    simp [get_params, get_pydict, hv]
  · intro h1 v h2
    simp [get_params, get_pydict, h1, h2]
  · intro h1 h2
    simp [get_params, get_pydict, h1, h2, load_default_params]

/-- C10 witness: an explicit keyword argument wins over a .PRM file
value for the same key. -/
theorem claim_C10_get_params_priority_witness :
    get_params c10script [("chunk_size", 2)] [("chunk_size", 3)] "chunk_size"
      = some 3 :=
  (claim_C10_get_params_priority c10script [("chunk_size", 2)]
    [("chunk_size", 3)] "chunk_size").1 3 (by decide)

end SpikeDetekt
